import Mathlib

/-!
Verification of the polytype `Context` core: substitution store, fresh-variable
watermark, unification (with occurs check), confinement, merge/reification and
substitution reduction, shallowly embedded from `src/context.rs`.

Machine `u16` variable ids are modelled as `Nat` (the spec's data model calls
them non-negative integers; arithmetic overflow aborts rather than wraps in
checked builds, so the unbounded model matches the checked semantics).

The Rust `HashMap<Variable, Type>` is modelled as an association list kept in
strictly increasing key order; `insertS`/`lookupS` give the map semantics, and
structural equality of stores built through these operations coincides with
map equality.

Functions of the external type representation that the core consumes but that
are not part of `src/` (`apply`, `occurs`) are modelled from the spec.  The
recursions that Rust performs directly but that need not terminate on a
malformed (cyclic) store — substitution application, the unification
recursion, and the chase loop of `reduct_substitution` — carry an explicit
fuel argument; theorems quantify over the fuel, so they cover every
terminating execution.  A Rust `panic!` (and divergence) is modelled as
`Option.none`.
-/

namespace PolytypeSpec

/-- The external recursive type representation (Rust `Type<N>`): a variable id
or a named constructor applied to an ordered list of argument types. -/
inductive Ty (N : Type) where
  | Variable : Nat → Ty N
  | Constructed : N → List (Ty N) → Ty N

mutual
/-- Decidable structural equality of types (Rust derives `PartialEq`). -/
def Ty.decEq {N : Type} [DecidableEq N] : (a b : Ty N) → Decidable (a = b)
  | .Variable v, .Variable w =>
    if h : v = w then .isTrue (by rw [h])
    else .isFalse (by intro hc; injection hc; contradiction)
  | .Variable _, .Constructed _ _ => .isFalse (by intro hc; cases hc)
  | .Constructed _ _, .Variable _ => .isFalse (by intro hc; cases hc)
  | .Constructed n1 a1, .Constructed n2 a2 =>
    if h : n1 = n2 then
      match Ty.decEqList a1 a2 with
      | .isTrue hl => .isTrue (by rw [h, hl])
      | .isFalse hl => .isFalse (by intro hc; injection hc; contradiction)
    else .isFalse (by intro hc; injection hc; contradiction)

/-- Decidable equality of argument lists. -/
def Ty.decEqList {N : Type} [DecidableEq N] : (a b : List (Ty N)) → Decidable (a = b)
  | [], [] => .isTrue rfl
  | [], _ :: _ => .isFalse (by intro hc; cases hc)
  | _ :: _, [] => .isFalse (by intro hc; cases hc)
  | t :: ts, u :: us =>
    match Ty.decEq t u, Ty.decEqList ts us with
    | .isTrue h1, .isTrue h2 => .isTrue (by rw [h1, h2])
    | .isFalse h1, _ => .isFalse (by intro hc; injection hc; contradiction)
    | _, .isFalse h2 => .isFalse (by intro hc; injection hc; contradiction)
end

instance {N : Type} [DecidableEq N] : DecidableEq (Ty N) := Ty.decEq

/-- The external quantified representation (Rust `TypeSchema<N>`): a monotype
or a universally quantified bound-variable id over a body. -/
inductive TypeSchema (N : Type) where
  | Monotype : Ty N → TypeSchema N
  | Polytype : Nat → TypeSchema N → TypeSchema N
deriving DecidableEq

/-- Errors during unification (Rust `UnificationError<N>`). -/
inductive UnificationError (N : Type) where
  | Occurs : Nat → UnificationError N
  | Failure : Ty N → Ty N → UnificationError N
deriving DecidableEq

/-- The substitution store: association list ordered by key, modelling
`HashMap<Variable, Type<N>>`. -/
abbrev Subst (N : Type) := List (Nat × Ty N)

variable {N : Type} [DecidableEq N]

/-- Map lookup on the association-list store (first matching key wins). -/
def lookupS : Subst N → Nat → Option (Ty N)
  | [], _ => none
  | (k, t) :: rest, v => if v = k then some t else lookupS rest v

/-- Map insert (overwrite) on the association-list store, keeping keys in
increasing order. -/
def insertS (v : Nat) (t : Ty N) : Subst N → Subst N
  | [] => [(v, t)]
  | (k, u) :: rest =>
    if v < k then (v, t) :: (k, u) :: rest
    else if v = k then (v, t) :: rest
    else (k, u) :: insertS v t rest

/-- A type environment (Rust `Context<N>`): the substitution store plus the
next-fresh-id watermark. -/
structure Context (N : Type) where
  substitution : Subst N
  next : Nat
deriving DecidableEq

/-- `Context::default()`: empty store, watermark 0. -/
def Context.empty : Context N := { substitution := [], next := 0 }

/-- `Context::extend`: insert/overwrite the binding for `v`; if `v` is at or
past the watermark, advance the watermark to `v + 1`. -/
def Context.extend (ctx : Context N) (v : Nat) (t : Ty N) : Context N :=
  { substitution := insertS v t ctx.substitution,
    next := if ctx.next ≤ v then v + 1 else ctx.next }

/-- `Context::new_variable`: return `Variable(next)` and advance the watermark
by one. -/
def Context.new_variable (ctx : Context N) : Ty N × Context N :=
  (Ty.Variable ctx.next, { ctx with next := ctx.next + 1 })

mutual
/-- Modelled from the spec: the external `occurs(variable)` predicate on a
type (not in `src/`) — whether the variable id appears in the type, with no
resolution through any store. -/
def occurs (v : Nat) : Ty N → Bool
  | .Variable w => v == w
  | .Constructed _ args => occursList v args

/-- The `occurs` predicate over a list of constructor arguments. -/
def occursList (v : Nat) : List (Ty N) → Bool
  | [] => false
  | t :: ts => occurs v t || occursList v ts
end

mutual
/-- One resolution layer of the external substitution application: replace
each bound variable of the type by `rec` of its binding, descending freely
through constructor arguments.  Helper for `applyF`. -/
def applyStep (rec : Ty N → Ty N) (s : Subst N) : Ty N → Ty N
  | .Variable v =>
    match lookupS s v with
    | some u => rec u
    | none => .Variable v
  | .Constructed n args => .Constructed n (applyStepList rec s args)

/-- `applyStep` over a list of constructor arguments. -/
def applyStepList (rec : Ty N → Ty N) (s : Subst N) : List (Ty N) → List (Ty N)
  | [] => []
  | t :: ts => applyStep rec s t :: applyStepList rec s ts
end

/-- Modelled from the spec: the external substitution application `apply`
(not in `src/`) — resolve all variables in a type per a given store.  The
fuel counts variable-chase hops only: one unit is spent each time a bound
variable is replaced by its binding, while descent into constructor
arguments is free.  Rust's recursion carries no fuel and diverges on a
cyclic store; wherever it terminates, no chase path can visit a store key
twice (a revisit would loop forever), so at most `store length` hops occur
on any path and the fuel used by `applyTy` reproduces Rust's result
exactly. -/
def applyF : Nat → Subst N → Ty N → Ty N
  | 0, _, t => t
  | f + 1, s, t => applyStep (applyF f s) s t

/-- Substitution application against a context; the internal fuel
`length + 1` suffices on every store on which Rust's `apply` terminates. -/
def applyTy (ctx : Context N) (t : Ty N) : Ty N :=
  applyF (ctx.substitution.length + 1) ctx.substitution t

mutual
/-- `Context::unify_internal` together with its argument loop, from
`src/context.rs`.  The result is `none` when the fuel runs out; otherwise it
carries the `Result` value and the context as left by the call — on an error
the context may already hold bindings made before the failing step, exactly
as in the Rust function. -/
def unifyInternalF : Nat → Context N → Ty N → Ty N →
    Option (Except (UnificationError N) Unit × Context N)
  | 0, _, _, _ => none
  | f + 1, ctx, t1, t2 =>
    if t1 = t2 then some (.ok (), ctx)
    else
      match t1, t2 with
      | .Variable v, t2 =>
        if occurs v t2 then some (.error (.Occurs v), ctx)
        else some (.ok (), ctx.extend v t2)
      | t1, .Variable v =>
        if occurs v t1 then some (.error (.Occurs v), ctx)
        else some (.ok (), ctx.extend v t1)
      | .Constructed n1 a1, .Constructed n2 a2 =>
        if n1 ≠ n2 then
          some (.error (.Failure (.Constructed n1 a1) (.Constructed n2 a2)), ctx)
        else
          unifyArgs f ctx (a1.zip a2)
termination_by structural f _ _ _ => f

/-- The `for (t1, t2) in a1.zip(a2)` loop of `unify_internal`: each pair is
substituted against the current, continuously updated context immediately
before recursing into it. -/
def unifyArgs : Nat → Context N → List (Ty N × Ty N) →
    Option (Except (UnificationError N) Unit × Context N)
  | 0, _, _ => none
  | _ + 1, ctx, [] => some (.ok (), ctx)
  | f + 1, ctx, (t1, t2) :: rest =>
    match unifyInternalF f ctx (applyTy ctx t1) (applyTy ctx t2) with
    | none => none
    | some (.error e, c') => some (.error e, c')
    | some (.ok _, c') => unifyArgs f c' rest
termination_by structural f _ _ => f
end

/-- `Context::unify` (transactional entry point): substitute both inputs
against the current store, run `unify_internal` on a scratch copy of the
context, and write the copy back only on success; on an error the original
context is returned untouched. -/
def Context.unify (ctx : Context N) (f : Nat) (t1 t2 : Ty N) :
    Option (Except (UnificationError N) Unit × Context N) :=
  match unifyInternalF f ctx (applyTy ctx t1) (applyTy ctx t2) with
  | none => none
  | some (.ok u, c') => some (.ok u, c')
  | some (.error e, _) => some (.error e, ctx)

/-- `Context::unify_fast`: the same substitution-and-recurse procedure run
directly on the live context, without the protective copy. -/
def Context.unify_fast (ctx : Context N) (f : Nat) (t1 t2 : Ty N) :
    Option (Except (UnificationError N) Unit × Context N) :=
  unifyInternalF f ctx (applyTy ctx t1) (applyTy ctx t2)

/-- The loop body of `Context::confine`: insert `self.substitution[v]` for
each `v` in `keep` into a fresh store; indexing a missing key is a Rust
panic, modelled as `none`. -/
def confineGo (s : Subst N) : Subst N → List Nat → Option (Subst N)
  | acc, [] => some acc
  | acc, v :: rest =>
    match lookupS s v with
    | some t => confineGo s (insertS v t acc) rest
    | none => none

/-- `Context::confine`: destructively replace the substitution store with
only the entries whose keys are listed in `keep`. -/
def Context.confine (ctx : Context N) (keep : List Nat) : Option (Context N) :=
  (confineGo ctx.substitution [] keep).map fun s' => { ctx with substitution := s' }

/-- The rewriting transform returned by `Context::merge` (Rust
`ContextChange`): an id shift plus the list of sacred (unshifted) ids. -/
structure ContextChange where
  delta : Nat
  sacreds : List Nat
deriving DecidableEq

/-- `Context::merge`: insert every binding of `other` at key `delta + v`
(`delta` being `self`'s pre-merge watermark), advance the watermark by
`other`'s entire watermark, and return the `ContextChange`. -/
def Context.merge (ctx : Context N) (other : Context N) (sacreds : List Nat) :
    Context N × ContextChange :=
  let delta := ctx.next
  let s' := other.substitution.foldl (fun s kv => insertS (delta + kv.1) kv.2 s)
    ctx.substitution
  ({ substitution := s', next := ctx.next + other.next },
   { delta := delta, sacreds := sacreds })

mutual
/-- `ContextChange::reify_type`: recurse through constructor arguments; a
variable in `sacreds` is left alone, any other variable is shifted by
`delta`. -/
def ContextChange.reify_type (ch : ContextChange) : Ty N → Ty N
  | .Variable n => if n ∈ ch.sacreds then .Variable n else .Variable (n + ch.delta)
  | .Constructed n args => .Constructed n (ContextChange.reifyList ch args)

/-- `reify_type` over a list of constructor arguments. -/
def ContextChange.reifyList (ch : ContextChange) : List (Ty N) → List (Ty N)
  | [] => []
  | t :: ts => ContextChange.reify_type ch t :: ContextChange.reifyList ch ts
end

/-- `ContextChange::reify_typeschema`: a monotype reifies its type; a
polytype shifts its bound-variable id by `delta` (unconditionally) and
recurses into the body. -/
def ContextChange.reify_typeschema (ch : ContextChange) : TypeSchema N → TypeSchema N
  | .Monotype t => .Monotype (ch.reify_type t)
  | .Polytype v body => .Polytype (v + ch.delta) (ch.reify_typeschema body)

/-- The `while let Type::Variable(k2) = v` chase loop of
`Context::reduct_substitution`: follow variable-valued bindings until a
non-variable terminal; an unbound variable mid-chase is a Rust panic and
running out of fuel models divergence, both `none`. -/
def chaseF : Nat → Subst N → Ty N → Option (Ty N)
  | _, _, .Constructed n args => some (.Constructed n args)
  | 0, _, .Variable _ => none
  | f + 1, s, .Variable v =>
    match lookupS s v with
    | some t => chaseF f s t
    | none => none

/-- The rebuild loop of `Context::reduct_substitution`: every entry is
re-inserted with its value chased to the end of its indirection chain. -/
def mapValsChase (full : Subst N) : Subst N → Option (Subst N)
  | [] => some []
  | (k, v) :: rest =>
    match chaseF (full.length + 1) full v with
    | none => none
    | some t => (mapValsChase full rest).map fun r => (k, t) :: r

/-- `Context::reduct_substitution`: remove detours in the substitution
table. -/
def Context.reduct_substitution (ctx : Context N) : Option (Context N) :=
  (mapValsChase ctx.substitution ctx.substitution).map
    fun s' => { ctx with substitution := s' }

/-- Big-step resolution: the graph of the external (fuel-free) substitution
application — `Resolves s t g` holds exactly when Rust's `apply` of `t`
against `s` terminates with `g`.  Used to state meaning preservation for
`reduct_substitution`. -/
inductive Resolves (s : Subst N) : Ty N → Ty N → Prop where
  | var_bound {v t g} : lookupS s v = some t → Resolves s t g →
      Resolves s (.Variable v) g
  | var_free {v} : lookupS s v = none → Resolves s (.Variable v) (.Variable v)
  | con {n args gs} : args.length = gs.length →
      (∀ p ∈ args.zip gs, Resolves s p.1 p.2) →
      Resolves s (.Constructed n args) (.Constructed n gs)

mutual
/-- A type with no variable occurrences (its resolution is itself under any
store). -/
def groundTy : Ty N → Bool
  | .Variable _ => false
  | .Constructed _ args => groundList args

/-- `groundTy` over a list of constructor arguments. -/
def groundList : List (Ty N) → Bool
  | [] => true
  | t :: ts => groundTy t && groundList ts
end

/-! ### Basic lemmas about the store and the external helpers -/

mutual
/-- Size of a type (used for induction over the nested `Ty`). -/
def sizeT : Ty N → Nat
  | .Variable _ => 1
  | .Constructed _ args => 1 + sizeL args

/-- Size of a list of types. -/
def sizeL : List (Ty N) → Nat
  | [] => 0
  | t :: ts => sizeT t + sizeL ts
end

lemma sizeT_le_of_mem {args : List (Ty N)} {a : Ty N} (h : a ∈ args) :
    sizeT a ≤ sizeL args := by
  induction args with
  | nil => cases h
  | cons t ts ih =>
    rcases List.mem_cons.mp h with rfl | h2
    · simp [sizeL]
    · have := ih h2
      simp [sizeL]
      omega

/-- Induction over `Ty` with a pointwise hypothesis on constructor
arguments. -/
lemma ty_induction {motive : Ty N → Prop}
    (hvar : ∀ v, motive (Ty.Variable v))
    (hcon : ∀ n args, (∀ a ∈ args, motive a) → motive (Ty.Constructed n args)) :
    ∀ t, motive t := by
  have key : ∀ (k : Nat) (t : Ty N), sizeT t ≤ k → motive t := by
    intro k
    induction k with
    | zero => intro t ht; cases t <;> simp [sizeT] at ht
    | succ k ih =>
      intro t ht
      cases t with
      | Variable v => exact hvar v
      | Constructed n args =>
        refine hcon n args fun a ha => ih a ?_
        have h1 : sizeT a ≤ sizeL args := sizeT_le_of_mem ha
        simp [sizeT] at ht
        omega
  exact fun t => key (sizeT t) t le_rfl

lemma lookupS_insertS_self (s : Subst N) (v : Nat) (t : Ty N) :
    lookupS (insertS v t s) v = some t := by
  induction s with
  | nil => simp [insertS, lookupS]
  | cons kv rest ih =>
    obtain ⟨k, u⟩ := kv
    by_cases h1 : v < k
    · simp [insertS, h1, lookupS]
    · by_cases h2 : v = k
      · simp [insertS, h1, h2, lookupS]
      · simp [insertS, h1, h2, lookupS, ih]

lemma lookupS_insertS_ne (s : Subst N) {v w : Nat} (t : Ty N) (h : w ≠ v) :
    lookupS (insertS v t s) w = lookupS s w := by
  induction s with
  | nil => simp [insertS, lookupS, h]
  | cons kv rest ih =>
    obtain ⟨k, u⟩ := kv
    by_cases h1 : v < k
    · simp [insertS, h1, lookupS, h]
    · by_cases h2 : v = k
      · subst h2
        simp [insertS, h1, lookupS, h]
      · by_cases h3 : w = k
        · simp [insertS, h1, h2, lookupS, h3]
        · simp [insertS, h1, h2, lookupS, h3, ih]

lemma length_insertS_new (s : Subst N) (v : Nat) (t : Ty N)
    (h : lookupS s v = none) : (insertS v t s).length = s.length + 1 := by
  induction s with
  | nil => simp [insertS]
  | cons kv rest ih =>
    obtain ⟨k, u⟩ := kv
    by_cases h2 : v = k
    · subst h2
      simp [lookupS] at h
    · simp [lookupS, h2] at h
      by_cases h1 : v < k
      · simp [insertS, h1]
      · simp [insertS, h1, h2, ih h]

lemma lookupS_mem {s : Subst N} {k : Nat} {u : Ty N} (h : lookupS s k = some u) :
    (k, u) ∈ s := by
  induction s with
  | nil => simp [lookupS] at h
  | cons kv rest ih =>
    obtain ⟨k2, u2⟩ := kv
    by_cases h1 : k = k2
    · subst h1
      simp [lookupS] at h
      simp [h]
    · simp [lookupS, h1] at h
      exact List.mem_cons_of_mem _ (ih h)

lemma occursList_iff (v : Nat) (ts : List (Ty N)) :
    occursList v ts = true ↔ ∃ t ∈ ts, occurs v t = true := by
  induction ts with
  | nil => simp [occursList]
  | cons t ts ih => simp [occursList, ih]

lemma groundList_iff (ts : List (Ty N)) :
    groundList ts = true ↔ ∀ t ∈ ts, groundTy t = true := by
  induction ts with
  | nil => simp [groundList]
  | cons t ts ih => simp [groundList, ih]

lemma applyStepList_eq_map (rec : Ty N → Ty N) (s : Subst N) (ts : List (Ty N)) :
    applyStepList rec s ts = ts.map (applyStep rec s) := by
  induction ts with
  | nil => rfl
  | cons t ts ih => simp [applyStepList, ih]

lemma applyStep_ground (rec : Ty N → Ty N) (s : Subst N) :
    ∀ t : Ty N, groundTy t = true → applyStep rec s t = t := by
  refine ty_induction (fun v => ?_) (fun n args ih => ?_)
  · intro h
    simp [groundTy] at h
  · intro h
    have hargs := (groundList_iff args).mp h
    simp only [applyStep, applyStepList_eq_map]
    congr 1
    exact (List.map_congr_left fun a ha => ih a ha (hargs a ha)).trans (List.map_id args)

lemma applyF_ground (f : Nat) (s : Subst N) :
    ∀ t : Ty N, groundTy t = true → applyF f s t = t := by
  cases f with
  | zero => intro t _; rfl
  | succ f => exact applyStep_ground _ s

lemma applyF_var_unbound (f : Nat) (s : Subst N) (v : Nat)
    (h : lookupS s v = none) : applyF f s (.Variable v) = .Variable v := by
  cases f with
  | zero => rfl
  | succ f => simp [applyF, applyStep, h]

lemma reifyList_eq_map (ch : ContextChange) (ts : List (Ty N)) :
    ContextChange.reifyList ch ts = ts.map ch.reify_type := by
  induction ts with
  | nil => rfl
  | cons t ts ih => simp [ContextChange.reifyList, ih]

lemma reify_ground (ch : ContextChange) :
    ∀ t : Ty N, groundTy t = true → ch.reify_type t = t := by
  refine ty_induction (fun v => ?_) (fun n args ih => ?_)
  · intro h; simp [groundTy] at h
  · intro h
    have hargs := (groundList_iff args).mp h
    simp only [ContextChange.reify_type, reifyList_eq_map]
    congr 1
    exact List.map_congr_left (fun a ha => ih a ha (hargs a ha)) |>.trans (List.map_id args)

/-! ### C1: transactional `unify` leaves the context unchanged on failure -/

/-- C1: for every context, fuel and pair of types, if `unify` returns an
error then the substitution store after the call is structurally equal to
the store before it, and the watermark is unchanged. -/
theorem unify_error_preserves_context (f : Nat) (ctx ctx' : Context N)
    (t1 t2 : Ty N) (e : UnificationError N)
    (h : ctx.unify f t1 t2 = some (.error e, ctx')) :
    ctx'.substitution = ctx.substitution ∧ ctx'.next = ctx.next := by
  unfold Context.unify at h
  rcases hr : unifyInternalF f ctx (applyTy ctx t1) (applyTy ctx t2) with _ | ⟨r, c⟩
  · rw [hr] at h
    simp at h
  · rw [hr] at h
    cases r with
    | ok u => simp at h
    | error e2 =>
      simp at h
      rw [h.2]
      exact ⟨rfl, rfl⟩

/-- Witness for C1 at a concrete failing unification. -/
theorem unify_error_preserves_context_witness :
    ((⟨[], 0⟩ : Context String).unify 1 (.Constructed "int" []) (.Constructed "bool" [])
      = some (.error (.Failure (.Constructed "int" []) (.Constructed "bool" [])), ⟨[], 0⟩)) ∧
    ((⟨[], 0⟩ : Context String).substitution = (⟨[], 0⟩ : Context String).substitution ∧
     (⟨[], 0⟩ : Context String).next = (⟨[], 0⟩ : Context String).next) :=
  ⟨rfl, unify_error_preserves_context 1 ⟨[], 0⟩ ⟨[], 0⟩ (.Constructed "int" [])
    (.Constructed "bool" [])
    (.Failure (.Constructed "int" []) (.Constructed "bool" [])) (by rfl)⟩

/-! ### C10: `unify` vs `unify_fast` -/

/-- C10: `unify` and `unify_fast` return the same result value; whenever the
result is success the two entry points leave the context in identical states.
(They differ only in the context left behind on failure: `unify` restores the
original context, `unify_fast` keeps the partial one.) -/
theorem unify_agrees_with_unify_fast (f : Nat) (ctx : Context N) (t1 t2 : Ty N) :
    (ctx.unify f t1 t2).map Prod.fst = (ctx.unify_fast f t1 t2).map Prod.fst ∧
    (∀ u c, ctx.unify_fast f t1 t2 = some (.ok u, c) →
      ctx.unify f t1 t2 = some (.ok u, c)) := by
  unfold Context.unify Context.unify_fast
  rcases hr : unifyInternalF f ctx (applyTy ctx t1) (applyTy ctx t2) with _ | ⟨r, c⟩
  · simp
  · cases r <;> simp

/-- Witness for C10 at a concrete successful unification. -/
theorem unify_agrees_with_unify_fast_witness :
    (⟨[], 0⟩ : Context String).unify_fast 1 (.Variable 0) (.Constructed "int" []) =
      some (.ok (), ⟨[(0, .Constructed "int" [])], 1⟩) ∧
    (⟨[], 0⟩ : Context String).unify 1 (.Variable 0) (.Constructed "int" []) =
      some (.ok (), ⟨[(0, .Constructed "int" [])], 1⟩) :=
  ⟨rfl, (unify_agrees_with_unify_fast 1 ⟨[], 0⟩ (.Variable 0)
    (.Constructed "int" [])).2 () ⟨[(0, .Constructed "int" [])], 1⟩ (by rfl)⟩

/-! ### C6: symbol mismatch carries both constructed types verbatim -/

/-- C6: whenever `unify_internal` reaches two constructed types whose symbols
differ, it fails with `Failure` carrying the two offending constructed types
verbatim — exactly as passed, with no further substitution — and leaves the
context as it was at that step. -/
theorem unify_internal_symbol_mismatch (f : Nat) (ctx : Context N) (n1 n2 : N)
    (a1 a2 : List (Ty N)) (h : n1 ≠ n2) :
    unifyInternalF (f + 1) ctx (.Constructed n1 a1) (.Constructed n2 a2) =
      some (.error (.Failure (.Constructed n1 a1) (.Constructed n2 a2)), ctx) := by
  have hne : (Ty.Constructed n1 a1 : Ty N) ≠ .Constructed n2 a2 := by
    intro hc
    injection hc
    contradiction
  simp [unifyInternalF, hne, h]

/-- Witness for C6 at a concrete symbol mismatch. -/
theorem unify_internal_symbol_mismatch_witness :
    unifyInternalF 1 (⟨[], 0⟩ : Context String) (.Constructed "int" [])
      (.Constructed "bool" []) =
      some (.error (.Failure (.Constructed "int" []) (.Constructed "bool" [])), ⟨[], 0⟩) :=
  unify_internal_symbol_mismatch 0 ⟨[], 0⟩ "int" "bool" [] [] (by decide)

/-! ### C7: argument lists unified pairwise, left to right, against the
continuously updated context -/

/-- C7: when two constructed types share their symbol, `unify_internal` zips
the argument lists and runs the pair loop; the loop handles pairs left to
right, substitutes each pair against the current context immediately before
recursing, and threads the context produced by one pair (with any new
bindings) into the next, stopping at the first error. -/
theorem unify_internal_args_left_to_right (f : Nat) (ctx : Context N) (n : N)
    (a1 a2 : List (Ty N)) (hne : a1 ≠ a2) :
    (unifyInternalF (f + 1) ctx (.Constructed n a1) (.Constructed n a2) =
      unifyArgs f ctx (a1.zip a2)) ∧
    ∀ (g : Nat) (c : Context N) (p : Ty N × Ty N) (rest : List (Ty N × Ty N)),
      unifyArgs (g + 1) c (p :: rest) =
        match unifyInternalF g c (applyTy c p.1) (applyTy c p.2) with
        | none => none
        | some (.error e, c') => some (.error e, c')
        | some (.ok _, c') => unifyArgs g c' rest := by
  constructor
  · have hne2 : (Ty.Constructed n a1 : Ty N) ≠ .Constructed n a2 := by
      intro hc
      injection hc
      contradiction
    simp [unifyInternalF, hne2]
  · intro g c p rest
    obtain ⟨p1, p2⟩ := p
    rfl

/-- Witness for C7: a shared-symbol pair where the binding made by the first
argument is visible while unifying the second. -/
theorem unify_internal_args_left_to_right_witness :
    unifyInternalF 4 (⟨[], 2⟩ : Context String)
      (.Constructed "f" [.Variable 0, .Variable 0])
      (.Constructed "f" [.Constructed "int" [], .Constructed "bool" []]) =
      unifyArgs 3 (⟨[], 2⟩ : Context String)
        ([Ty.Variable 0, Ty.Variable 0].zip
          [Ty.Constructed "int" [], Ty.Constructed "bool" []]) ∧
    unifyArgs 3 (⟨[], 2⟩ : Context String)
      ([Ty.Variable 0, Ty.Variable 0].zip
        [Ty.Constructed "int" [], Ty.Constructed "bool" []]) =
      some (.error (.Failure (.Constructed "int" []) (.Constructed "bool" [])),
        ⟨[(0, .Constructed "int" [])], 2⟩) :=
  ⟨(unify_internal_args_left_to_right 3 ⟨[], 2⟩ "f"
      [Ty.Variable 0, Ty.Variable 0]
      [Ty.Constructed "int" [], Ty.Constructed "bool" []] (by decide)).1,
   by rfl⟩

/-! ### C2: unifying a variable against a type -/

/-- C2 (amended): for a context in which `v` is unbound, writing `T'` for
`T` fully substituted against the current store: if `T'` is exactly
`Variable v`, `unify` succeeds with no new binding (the identity shortcut
fires even though `T'` contains `v`); otherwise, if `v` occurs in `T'` the
call fails with `Occurs v` and the context is unchanged, and if it does
not, the call succeeds binding `v ↦ T'` — the resolved form, not `T`
verbatim. -/
theorem unify_variable_occurs_spec (f : Nat) (ctx : Context N) (v : Nat) (T : Ty N)
    (hv : lookupS ctx.substitution v = none) :
    (applyTy ctx T = .Variable v →
      ctx.unify (f + 1) (.Variable v) T = some (.ok (), ctx)) ∧
    (occurs v (applyTy ctx T) = true → applyTy ctx T ≠ .Variable v →
      ctx.unify (f + 1) (.Variable v) T = some (.error (.Occurs v), ctx)) ∧
    (occurs v (applyTy ctx T) = false →
      ctx.unify (f + 1) (.Variable v) T = some (.ok (), ctx.extend v (applyTy ctx T))) := by
  have h1 : applyTy ctx (.Variable v) = .Variable v :=
    applyF_var_unbound _ _ _ hv
  refine ⟨fun heq => ?_, fun hocc hne => ?_, fun hocc => ?_⟩
  · unfold Context.unify
    rw [h1, heq]
    simp [unifyInternalF]
  · unfold Context.unify
    rw [h1]
    have hne2 : (Ty.Variable v : Ty N) ≠ applyTy ctx T := fun hc => hne hc.symm
    simp [unifyInternalF, hne2, hocc]
  · unfold Context.unify
    rw [h1]
    have hne2 : (Ty.Variable v : Ty N) ≠ applyTy ctx T := by
      intro hc
      rw [← hc] at hocc
      simp [occurs] at hocc
    simp [unifyInternalF, hne2, hocc]

/-- Counterexample to C2 as stated: in the empty context, `T = Variable 0`
contains `v = 0`, so the claim demands failure with `Occurs 0`; the code's
identity shortcut succeeds instead (with no binding). -/
theorem unify_variable_occurs_counterexample :
    occurs 0 (Ty.Variable 0 : Ty String) = true ∧
    (⟨[], 0⟩ : Context String).unify 1 (.Variable 0) (.Variable 0) =
      some (.ok (), ⟨[], 0⟩) :=
  ⟨rfl, rfl⟩

/-- Witness for C2 (amended), exercising the binding branch and, on a store
with a nested indirect chain (`1 ↦ c(v2)`, `2 ↦ c(v3)`, `3 ↦ v0`), the
occurs-failure branch: the candidate resolves to `c(c(v0))`, the occurrence
of `v0` is caught, and the call fails with `Occurs 0`. -/
theorem unify_variable_occurs_spec_witness :
    (⟨[], 0⟩ : Context String).unify 1 (.Variable 0) (.Constructed "int" []) =
      some (.ok (), (⟨[], 0⟩ : Context String).extend 0 (.Constructed "int" [])) ∧
    (⟨[(1, .Constructed "c" [.Variable 2]), (2, .Constructed "c" [.Variable 3]),
        (3, .Variable 0)], 4⟩ : Context String).unify 1 (.Variable 0) (.Variable 1) =
      some (.error (.Occurs 0),
        ⟨[(1, .Constructed "c" [.Variable 2]), (2, .Constructed "c" [.Variable 3]),
          (3, .Variable 0)], 4⟩) :=
  ⟨(unify_variable_occurs_spec 0 ⟨[], 0⟩ 0 (.Constructed "int" []) (by rfl)).2.2 (by rfl),
   (unify_variable_occurs_spec 0
      ⟨[(1, .Constructed "c" [.Variable 2]), (2, .Constructed "c" [.Variable 3]),
        (3, .Variable 0)], 4⟩ 0 (.Variable 1) (by rfl)).2.1 (by rfl) (by decide)⟩

/-! ### C5: reification of type schemas -/

/-- C5 (amended): reification recurses through constructor arguments and
polytype bodies; a free `Variable n` is shifted by `delta` unless `n` is in
`sacreds`; a polytype's bound-variable id, however, is shifted by `delta`
unconditionally — the sacred exemption is not applied to binder ids. -/
theorem reify_typeschema_shift_spec (ch : ContextChange) (t : Ty N) (m : Nat)
    (n : N) (args : List (Ty N)) (v : Nat) (body : TypeSchema N) :
    ch.reify_typeschema (.Monotype t) = .Monotype (ch.reify_type t) ∧
    ch.reify_typeschema (.Polytype v body) =
      .Polytype (v + ch.delta) (ch.reify_typeschema body) ∧
    ch.reify_type (Ty.Variable m : Ty N) =
      (if m ∈ ch.sacreds then .Variable m else .Variable (m + ch.delta)) ∧
    ch.reify_type (.Constructed n args) = .Constructed n (args.map ch.reify_type) := by
  refine ⟨rfl, rfl, rfl, ?_⟩
  simp [ContextChange.reify_type, reifyList_eq_map]

/-- Counterexample to C5 as stated: with `delta = 5` and sacred id 0, the
claim demands the bound-variable id 0 of a polytype be left unshifted; the
code shifts it to 5 (while the sacred free occurrence in the body stays). -/
theorem reify_typeschema_sacred_binder_counterexample :
    ContextChange.reify_typeschema (N := String) ⟨5, [0]⟩
      (.Polytype 0 (.Monotype (.Variable 0))) =
      .Polytype 5 (.Monotype (.Variable 0)) ∧
    (TypeSchema.Polytype 5 (.Monotype (.Variable 0)) : TypeSchema String) ≠
      .Polytype 0 (.Monotype (.Variable 0)) :=
  ⟨rfl, by decide⟩

/-! ### C3: merge shifts every binding key -/

lemma merge_fold_lookup_untouched (delta : Nat) :
    ∀ (entries : List (Nat × Ty N)) (base : Subst N) (k : Nat),
      (∀ kv ∈ entries, delta + kv.1 ≠ k) →
      lookupS (entries.foldl (fun s kv => insertS (delta + kv.1) kv.2 s) base) k =
        lookupS base k := by
  intro entries
  induction entries with
  | nil => intro base k _; rfl
  | cons kv0 rest ih =>
    intro base k hk
    obtain ⟨v0, t0⟩ := kv0
    simp only [List.foldl_cons]
    rw [ih _ k fun kv hkv => hk kv (List.mem_cons_of_mem _ hkv)]
    exact lookupS_insertS_ne _ _ (fun hc => hk (v0, t0) (by simp) hc.symm)

lemma merge_fold_lookup_other (delta : Nat) :
    ∀ (entries : List (Nat × Ty N)) (base : Subst N) (v : Nat) (t : Ty N),
      (entries.map Prod.fst).Nodup → (v, t) ∈ entries →
      lookupS (entries.foldl (fun s kv => insertS (delta + kv.1) kv.2 s) base)
        (delta + v) = some t := by
  intro entries
  induction entries with
  | nil => intro base v t _ hm; cases hm
  | cons kv0 rest ih =>
    intro base v t hnd hm
    obtain ⟨v0, t0⟩ := kv0
    simp only [List.map_cons, List.nodup_cons] at hnd
    rcases List.mem_cons.mp hm with heq | hmem
    · injection heq with h1 h2
      subst h1
      subst h2
      simp only [List.foldl_cons]
      rw [merge_fold_lookup_untouched delta rest _ _ ?_]
      · exact lookupS_insertS_self _ _ _
      · intro kv hkv hc
        exact hnd.1 (by
          have : kv.1 = v := by omega
          rw [← this]
          exact List.mem_map_of_mem Prod.fst hkv)
    · simp only [List.foldl_cons]
      exact ih _ v t hnd.2 hmem

/-- C3 (amended): `merge(other, sacreds)` with pre-merge watermark `delta`
inserts every binding of `other` — sacred ids included — at key `delta + v`,
records `delta` and `sacreds` in the returned `ContextChange`, and advances
the watermark by `other`'s entire watermark.  (Bindings whose key is in
`sacreds` are shifted like any other, not merged unshifted.) -/
theorem merge_shifts_all_bindings (ctx other : Context N) (sacreds : List Nat)
    (h : (other.substitution.map Prod.fst).Nodup) :
    (ctx.merge other sacreds).1.next = ctx.next + other.next ∧
    (ctx.merge other sacreds).2 = ⟨ctx.next, sacreds⟩ ∧
    ∀ v t, lookupS other.substitution v = some t →
      lookupS (ctx.merge other sacreds).1.substitution (ctx.next + v) = some t := by
  refine ⟨rfl, rfl, fun v t hv => ?_⟩
  exact merge_fold_lookup_other ctx.next other.substitution ctx.substitution v t h
    (lookupS_mem hv)

/-- Counterexample to C3 as stated: `other` binds the sacred id 0, yet after
the merge the combined store has no binding at key 0 — the sacred binding
was shifted to `delta + 0 = 1` like any other. -/
theorem merge_sacred_binding_counterexample :
    lookupS ((Context.merge (N := String) ⟨[], 1⟩
      ⟨[(0, .Constructed "int" [])], 1⟩ [0]).1.substitution) 0 = none ∧
    lookupS ((Context.merge (N := String) ⟨[], 1⟩
      ⟨[(0, .Constructed "int" [])], 1⟩ [0]).1.substitution) 1 =
      some (.Constructed "int" []) :=
  ⟨rfl, rfl⟩

/-- Witness for C3 (amended) at a concrete merge. -/
theorem merge_shifts_all_bindings_witness :
    lookupS ((Context.merge (N := String) ⟨[], 2⟩
      ⟨[(1, .Constructed "int" [])], 3⟩ []).1.substitution) (2 + 1) =
      some (.Constructed "int" []) ∧
    (Context.merge (N := String) ⟨[], 2⟩
      ⟨[(1, .Constructed "int" [])], 3⟩ []).1.next = 2 + 3 :=
  ⟨(merge_shifts_all_bindings ⟨[], 2⟩ ⟨[(1, .Constructed "int" [])], 3⟩ []
      (by decide)).2.2 1 (.Constructed "int" []) (by rfl),
   (merge_shifts_all_bindings ⟨[], 2⟩ ⟨[(1, .Constructed "int" [])], 3⟩ []
      (by decide)).1⟩

/-! ### C8: confinement -/

lemma confineGo_spec (s : Subst N) :
    ∀ (ks : List Nat) (acc : Subst N),
      (∀ v ∈ ks, (lookupS s v).isSome) →
      ∃ r, confineGo s acc ks = some r ∧
        (∀ w, lookupS r w = if w ∈ ks then lookupS s w else lookupS acc w) ∧
        (ks.Nodup → (∀ v ∈ ks, lookupS acc v = none) →
          r.length = acc.length + ks.length) := by
  intro ks
  induction ks with
  | nil =>
    intro acc _
    exact ⟨acc, rfl, fun w => by simp, fun _ _ => rfl⟩
  | cons v rest ih =>
    intro acc hall
    obtain ⟨t, ht⟩ := Option.isSome_iff_exists.mp (hall v (by simp))
    obtain ⟨r, hr, hlook, hlen⟩ :=
      ih (insertS v t acc) (fun u hu => hall u (List.mem_cons_of_mem _ hu))
    refine ⟨r, ?_, ?_, ?_⟩
    · simp only [confineGo, ht]
      exact hr
    · intro w
      rw [hlook w]
      by_cases hw1 : w ∈ rest
      · simp [hw1]
      · by_cases hw2 : w = v
        · subst hw2
          simp [hw1, lookupS_insertS_self, ht]
        · simp [hw1, hw2, lookupS_insertS_ne _ _ hw2]
    · intro hnd hnone
      simp only [List.nodup_cons] at hnd
      have hlen2 := hlen hnd.2 fun u hu => by
        rw [lookupS_insertS_ne _ _ (fun hc => hnd.1 (by rw [← hc]; exact hu))]
        exact hnone u (List.mem_cons_of_mem _ hu)
      rw [hlen2, length_insertS_new _ _ _ (hnone v (by simp))]
      simp [List.length_cons]
      omega

lemma confineGo_missing (s : Subst N) :
    ∀ (ks : List Nat) (acc : Subst N) (v : Nat), v ∈ ks → lookupS s v = none →
      confineGo s acc ks = none := by
  intro ks
  induction ks with
  | nil => intro acc v hv; cases hv
  | cons u rest ih =>
    intro acc v hv hnone
    rcases List.mem_cons.mp hv with rfl | hmem
    · simp [confineGo, hnone]
    · cases hu : lookupS s u with
      | none => simp [confineGo, hu]
      | some t =>
        simp only [confineGo, hu]
        exact ih _ v hmem hnone

/-- C8: when every id of `keep` is present in the store, `confine(keep)`
succeeds (the missing-key fatal path is unreachable), leaves exactly the
entries keyed by `keep` with unchanged values and an unchanged watermark —
for `keep` a set, exactly `keep.length` entries; a key in `keep` absent from
the store makes the whole call fatal (`none`), not a recoverable error. -/
theorem confine_keeps_exactly (ctx : Context N) (keep : List Nat) :
    ((∀ v ∈ keep, (lookupS ctx.substitution v).isSome) →
      ∃ ctx', ctx.confine keep = some ctx' ∧
        ctx'.next = ctx.next ∧
        (∀ w, lookupS ctx'.substitution w =
          if w ∈ keep then lookupS ctx.substitution w else none) ∧
        (keep.Nodup → ctx'.substitution.length = keep.length)) ∧
    (∀ v ∈ keep, lookupS ctx.substitution v = none → ctx.confine keep = none) := by
  constructor
  · intro hall
    obtain ⟨r, hr, hlook, hlen⟩ := confineGo_spec ctx.substitution keep [] hall
    refine ⟨{ ctx with substitution := r }, ?_, rfl, ?_, ?_⟩
    · simp [Context.confine, hr]
    · intro w
      have := hlook w
      simpa [lookupS] using this
    · intro hnd
      have := hlen hnd fun v _ => rfl
      simpa using this
  · intro v hv hnone
    simp [Context.confine, confineGo_missing ctx.substitution keep [] v hv hnone]

/-- Witness for C8 at a concrete store: confining to a present key, and the
fatal path on an absent key. -/
theorem confine_keeps_exactly_witness :
    (∃ ctx', Context.confine (N := String)
        ⟨[(0, .Constructed "int" []), (1, .Constructed "bool" [])], 2⟩ [1] = some ctx' ∧
      ctx'.next = (⟨[(0, Ty.Constructed "int" []), (1, Ty.Constructed "bool" [])], 2⟩ :
        Context String).next ∧
      (∀ w, lookupS ctx'.substitution w =
        if w ∈ [1] then
          lookupS (⟨[(0, Ty.Constructed "int" []), (1, Ty.Constructed "bool" [])], 2⟩ :
            Context String).substitution w
        else none) ∧
      (List.Nodup [1] → ctx'.substitution.length = List.length [1])) ∧
    Context.confine (N := String)
      ⟨[(0, .Constructed "int" []), (1, .Constructed "bool" [])], 2⟩ [5] = none := by
  constructor
  · exact (confine_keeps_exactly
      (⟨[(0, .Constructed "int" []), (1, .Constructed "bool" [])], 2⟩ : Context String)
      [1]).1 (by decide)
  · exact (confine_keeps_exactly
      (⟨[(0, .Constructed "int" []), (1, .Constructed "bool" [])], 2⟩ : Context String)
      [5]).2 5 (by decide) (by rfl)

/-! ### C4: merge followed by reification, and resolved meanings -/

lemma not_mem_of_lookupS_none {s : Subst N} {v : Nat} (h : lookupS s v = none) :
    ∀ t, (v, t) ∉ s := by
  induction s with
  | nil => intro t hm; cases hm
  | cons kv rest ih =>
    intro t hm
    obtain ⟨k, u⟩ := kv
    by_cases hvk : v = k
    · subst hvk
      simp [lookupS] at h
    · simp [lookupS, hvk] at h
      rcases List.mem_cons.mp hm with heq | hmem
      · exact hvk (congrArg Prod.fst heq)
      · exact ih h t hmem

lemma lookupS_none_of_keys_below {s : Subst N} {n k : Nat}
    (hkb : ∀ kv ∈ s, kv.1 < n) (hk : n ≤ k) : lookupS s k = none := by
  cases h : lookupS s k with
  | none => rfl
  | some t =>
    have := hkb (k, t) (lookupS_mem h)
    omega

lemma merge_lookup_unbound (ctx other : Context N) {v : Nat}
    (hv : lookupS other.substitution v = none)
    (hkb : ∀ kv ∈ ctx.substitution, kv.1 < ctx.next) (sacreds : List Nat) :
    lookupS (ctx.merge other sacreds).1.substitution (ctx.next + v) = none := by
  show lookupS (other.substitution.foldl
    (fun s kv => insertS (ctx.next + kv.1) kv.2 s) ctx.substitution) (ctx.next + v) = none
  rw [merge_fold_lookup_untouched ctx.next other.substitution ctx.substitution
    (ctx.next + v) ?_]
  · exact lookupS_none_of_keys_below hkb (Nat.le_add_right _ _)
  · intro kv hkv hc
    have : kv.1 = v := by omega
    exact not_mem_of_lookupS_none hv kv.2 (by rw [← this]; exact hkv)

/-- C4 (amended): for a merge with no sacred ids whose absorbed context binds
variables only to ground (variable-free) types, resolution commutes with the
returned rewrite at every fuel: resolving the reified type under the merged
context yields exactly the reified resolution under the original absorbed
context.  (The literal equality of resolved meanings the claim states fails
in general: free variables get renamed by `delta`, and an absorbed binding
value that mentions variables is inserted unreified, so the base context's
bindings can capture it.) -/
theorem merge_reify_commutes_on_ground (ctx other : Context N) (T : Ty N)
    (hg : ∀ kv ∈ other.substitution, groundTy kv.2 = true)
    (hnd : (other.substitution.map Prod.fst).Nodup)
    (hkb : ∀ kv ∈ ctx.substitution, kv.1 < ctx.next) :
    ∀ f, applyF f (ctx.merge other []).1.substitution
        ((ctx.merge other []).2.reify_type T) =
      (ctx.merge other []).2.reify_type (applyF f other.substitution T) := by
  have hch : (ctx.merge other []).2 = (⟨ctx.next, []⟩ : ContextChange) := rfl
  rw [hch]
  induction T using ty_induction with
  | hvar v =>
    intro f
    cases f with
    | zero => rfl
    | succ f =>
      have hre : (⟨ctx.next, []⟩ : ContextChange).reify_type (Ty.Variable v : Ty N) =
          .Variable (v + ctx.next) := by
        simp [ContextChange.reify_type]
      rw [hre, Nat.add_comm v ctx.next]
      cases hv : lookupS other.substitution v with
      | some t =>
        have hgt : groundTy t = true := hg (v, t) (lookupS_mem hv)
        have hm : lookupS (ctx.merge other []).1.substitution (ctx.next + v) = some t :=
          merge_fold_lookup_other ctx.next other.substitution ctx.substitution v t hnd
            (lookupS_mem hv)
        simp only [applyF, applyStep, hm, hv]
        rw [applyF_ground f _ t hgt, applyF_ground f _ t hgt,
          reify_ground _ t hgt]
      | none =>
        have hm : lookupS (ctx.merge other []).1.substitution (ctx.next + v) = none :=
          merge_lookup_unbound ctx other hv hkb []
        simp only [applyF, applyStep, hm, hv]
        rw [hre, Nat.add_comm v ctx.next]
  | hcon n args ih =>
    intro f
    cases f with
    | zero => rfl
    | succ f =>
      simp only [ContextChange.reify_type, reifyList_eq_map, applyF, applyStep,
        applyStepList_eq_map, List.map_map]
      congr 1
      refine List.map_congr_left fun a ha => ?_
      have hpt := ih a ha (f + 1)
      simpa only [applyF, Function.comp_apply] using hpt

/-- Counterexample to C4 as stated: the absorbed context binds `v1 ↦ v0`
with `v0` unbound; after the merge, `v0` (kept unreified inside the moved
binding value) is captured by the base context's binding `0 ↦ bool`, so the
reified type resolves to `bool` under the merged context while the original
resolved meaning was `Variable 0`. -/
theorem merge_reify_meaning_counterexample :
    applyTy (Context.merge (N := String) ⟨[(0, .Constructed "bool" [])], 1⟩
        ⟨[(1, .Variable 0)], 2⟩ []).1
      ((Context.merge (N := String) ⟨[(0, .Constructed "bool" [])], 1⟩
        ⟨[(1, .Variable 0)], 2⟩ []).2.reify_type (.Variable 1)) =
      .Constructed "bool" [] ∧
    applyTy (⟨[(1, .Variable 0)], 2⟩ : Context String) (.Variable 1) = .Variable 0 ∧
    (Ty.Constructed "bool" [] : Ty String) ≠ .Variable 0 :=
  ⟨rfl, rfl, by decide⟩

/-- Witness for C4 (amended) at a concrete ground-valued merge. -/
theorem merge_reify_commutes_on_ground_witness :
    applyF 3 (Context.merge (N := String) ⟨[(0, .Constructed "bool" [])], 1⟩
        ⟨[(1, .Constructed "int" [])], 2⟩ []).1.substitution
      ((Context.merge (N := String) ⟨[(0, .Constructed "bool" [])], 1⟩
        ⟨[(1, .Constructed "int" [])], 2⟩ []).2.reify_type
        (.Constructed "f" [.Variable 1, .Variable 5])) =
      (Context.merge (N := String) ⟨[(0, .Constructed "bool" [])], 1⟩
        ⟨[(1, .Constructed "int" [])], 2⟩ []).2.reify_type
        (applyF 3 [(1, Ty.Constructed "int" [])]
          (.Constructed "f" [.Variable 1, .Variable 5])) ∧
    (Context.merge (N := String) ⟨[(0, .Constructed "bool" [])], 1⟩
        ⟨[(1, .Constructed "int" [])], 2⟩ []).2.reify_type
      (applyF 3 [(1, Ty.Constructed "int" [])]
        (.Constructed "f" [.Variable 1, .Variable 5])) =
      .Constructed "f" [.Constructed "int" [], .Variable 6] :=
  ⟨merge_reify_commutes_on_ground ⟨[(0, .Constructed "bool" [])], 1⟩
    ⟨[(1, .Constructed "int" [])], 2⟩ (.Constructed "f" [.Variable 1, .Variable 5])
    (by decide) (by decide) (by decide) 3, by rfl⟩

/-! ### C9: substitution reduction -/

lemma chaseF_mono {s : Subst N} :
    ∀ {f : Nat} {t g : Ty N}, chaseF f s t = some g → chaseF (f + 1) s t = some g := by
  intro f
  induction f with
  | zero =>
    intro t g h
    cases t with
    | Constructed n args => exact h
    | Variable v => simp [chaseF] at h
  | succ f ih =>
    intro t g h
    cases t with
    | Constructed n args => exact h
    | Variable v =>
      simp only [chaseF] at h ⊢
      cases hv : lookupS s v with
      | none => rw [hv] at h; cases h
      | some u =>
        rw [hv] at h
        exact ih h

lemma chaseF_le {f f' : Nat} (hle : f ≤ f') {s : Subst N} {t g : Ty N}
    (h : chaseF f s t = some g) : chaseF f' s t = some g := by
  obtain ⟨d, rfl⟩ := Nat.exists_eq_add_of_le hle
  clear hle
  induction d with
  | zero => exact h
  | succ d ih => exact chaseF_mono ih

lemma chaseF_det {f1 f2 : Nat} {s : Subst N} {t g1 g2 : Ty N}
    (h1 : chaseF f1 s t = some g1) (h2 : chaseF f2 s t = some g2) : g1 = g2 := by
  have m1 : chaseF (max f1 f2) s t = some g1 := chaseF_le (le_max_left _ _) h1
  have m2 : chaseF (max f1 f2) s t = some g2 := chaseF_le (le_max_right _ _) h2
  rw [m1] at m2
  injection m2

lemma chaseF_constructed {s : Subst N} :
    ∀ {f : Nat} {t g : Ty N}, chaseF f s t = some g →
      ∃ n args, g = Ty.Constructed n args := by
  intro f
  induction f with
  | zero =>
    intro t g h
    cases t with
    | Constructed n args =>
      simp [chaseF] at h
      exact ⟨n, args, h.symm⟩
    | Variable v => simp [chaseF] at h
  | succ f ih =>
    intro t g h
    cases t with
    | Constructed n args =>
      simp [chaseF] at h
      exact ⟨n, args, h.symm⟩
    | Variable v =>
      simp only [chaseF] at h
      cases hv : lookupS s v with
      | none => rw [hv] at h; cases h
      | some u =>
        rw [hv] at h
        exact ih h

lemma mapValsChase_some {full : Subst N} :
    ∀ s0 : Subst N, (∀ kv ∈ s0, (chaseF (full.length + 1) full kv.2).isSome) →
      ∃ r, mapValsChase full s0 = some r ∧
        ∀ k, lookupS r k = (lookupS s0 k).bind (chaseF (full.length + 1) full) := by
  intro s0
  induction s0 with
  | nil => exact fun _ => ⟨[], rfl, fun k => rfl⟩
  | cons kv0 rest ih =>
    intro hall
    obtain ⟨k0, v0⟩ := kv0
    obtain ⟨t0, ht0⟩ := Option.isSome_iff_exists.mp (hall (k0, v0) (by simp))
    obtain ⟨r, hr, hlook⟩ := ih fun kv hkv => hall kv (List.mem_cons_of_mem _ hkv)
    refine ⟨(k0, t0) :: r, ?_, ?_⟩
    · simp [mapValsChase, ht0, hr]
    · intro k
      by_cases hk : k = k0
      · subst hk
        simp [lookupS, ht0]
      · simp [lookupS, hk, hlook k]

lemma mapValsChase_none {full : Subst N} :
    ∀ s0 : Subst N, ∀ kv ∈ s0, chaseF (full.length + 1) full kv.2 = none →
      mapValsChase full s0 = none := by
  intro s0
  induction s0 with
  | nil => intro kv hm; cases hm
  | cons kv0 rest ih =>
    intro kv hm hch
    obtain ⟨k0, v0⟩ := kv0
    rcases List.mem_cons.mp hm with heq | hmem
    · subst heq
      simp only [mapValsChase, hch]
    · cases h0 : chaseF (full.length + 1) full v0 with
      | none => simp only [mapValsChase, h0]
      | some t0 =>
        simp [mapValsChase, h0, ih kv hmem hch]

lemma resolves_var_inv {s : Subst N} {v : Nat} {u g : Ty N}
    (hl : lookupS s v = some u) (h : Resolves s (.Variable v) g) : Resolves s u g := by
  cases h with
  | var_bound hl2 hres =>
    rw [hl] at hl2
    injection hl2 with he
    rw [he]
    exact hres
  | var_free hl2 => rw [hl] at hl2; cases hl2

lemma resolves_chase_fwd {s s' : Subst N}
    (hall : ∀ kv ∈ s, (chaseF (s.length + 1) s kv.2).isSome)
    (hs' : ∀ k, lookupS s' k = (lookupS s k).bind (chaseF (s.length + 1) s))
    {f : Nat} {u t g : Ty N} (hch : chaseF f s u = some t) (hr : Resolves s' u g) :
    Resolves s' t g := by
  cases u with
  | Constructed n args =>
    have ht : t = Ty.Constructed n args := by
      have : chaseF f s (Ty.Constructed n args) = some (Ty.Constructed n args) := by
        cases f <;> rfl
      rw [this] at hch
      injection hch with he
      exact he.symm
    rw [ht]
    exact hr
  | Variable v =>
    cases f with
    | zero => simp [chaseF] at hch
    | succ f =>
      simp only [chaseF] at hch
      cases hv : lookupS s v with
      | none => rw [hv] at hch; cases hch
      | some u2 =>
        rw [hv] at hch
        obtain ⟨t2, ht2⟩ := Option.isSome_iff_exists.mp (hall (v, u2) (lookupS_mem hv))
        have he : t2 = t := chaseF_det ht2 hch
        have hlk : lookupS s' v = some t := by
          rw [hs' v, hv]
          simp only [Option.some_bind]
          rw [ht2, he]
        exact resolves_var_inv hlk hr

lemma resolves_chase_back {s : Subst N} :
    ∀ {f : Nat} {u t g : Ty N}, chaseF f s u = some t → Resolves s t g →
      Resolves s u g := by
  intro f
  induction f with
  | zero =>
    intro u t g hch hres
    cases u with
    | Constructed n args =>
      simp [chaseF] at hch
      rw [← hch] at hres
      exact hres
    | Variable v => simp [chaseF] at hch
  | succ f ih =>
    intro u t g hch hres
    cases u with
    | Constructed n args =>
      simp [chaseF] at hch
      rw [← hch] at hres
      exact hres
    | Variable v =>
      simp only [chaseF] at hch
      cases hv : lookupS s v with
      | none => rw [hv] at hch; cases hch
      | some u2 =>
        rw [hv] at hch
        exact Resolves.var_bound hv (ih hch hres)

lemma resolves_reduced_iff {s s' : Subst N}
    (hall : ∀ kv ∈ s, (chaseF (s.length + 1) s kv.2).isSome)
    (hs' : ∀ k, lookupS s' k = (lookupS s k).bind (chaseF (s.length + 1) s)) :
    ∀ t g, Resolves s t g ↔ Resolves s' t g := by
  intro t g
  constructor
  · intro h
    induction h with
    | @var_bound v u g2 hl hres ih =>
      obtain ⟨tv, htv⟩ := Option.isSome_iff_exists.mp (hall (v, u) (lookupS_mem hl))
      have hlk : lookupS s' v = some tv := by
        rw [hs' v, hl]
        simp only [Option.some_bind]
        exact htv
      exact Resolves.var_bound hlk (resolves_chase_fwd hall hs' htv ih)
    | @var_free v hl =>
      have hlk : lookupS s' v = none := by
        rw [hs' v, hl]
        rfl
      exact Resolves.var_free hlk
    | @con n args gs hlen hpt ih => exact Resolves.con hlen ih
  · intro h
    induction h with
    | @var_bound v tv g2 hl hres ih =>
      rw [hs' v] at hl
      cases hv : lookupS s v with
      | none => rw [hv] at hl; cases hl
      | some u =>
        rw [hv] at hl
        simp only [Option.some_bind] at hl
        exact Resolves.var_bound hv (resolves_chase_back hl ih)
    | @var_free v hl =>
      rw [hs' v] at hl
      cases hv : lookupS s v with
      | none => exact Resolves.var_free hv
      | some u =>
        rw [hv] at hl
        simp only [Option.some_bind] at hl
        have := hall (v, u) (lookupS_mem hv)
        rw [hl] at this
        cases this
    | @con n args gs hlen hpt ih => exact Resolves.con hlen ih

/-- C9: in a context where every value's variable chain terminates at a
non-variable binding, `reduct_substitution` succeeds, rewrites every entry to
the non-variable terminal of its chain (and nothing else: keys, values off
the store and the watermark are untouched), and preserves the fully-chased
meaning of every type — `Resolves` (the graph of fuel-free substitution
application) is unchanged, so only the number of indirection hops differs;
and whenever some chain hits an unbound variable the whole call is fatal
(`none`), not a normal error. -/
theorem reduct_substitution_spec (ctx : Context N) :
    ((∀ kv ∈ ctx.substitution,
        (chaseF (ctx.substitution.length + 1) ctx.substitution kv.2).isSome) →
      ∃ ctx', ctx.reduct_substitution = some ctx' ∧
        ctx'.next = ctx.next ∧
        (∀ k, lookupS ctx'.substitution k =
          (lookupS ctx.substitution k).bind
            (chaseF (ctx.substitution.length + 1) ctx.substitution)) ∧
        (∀ k t, lookupS ctx'.substitution k = some t →
          ∃ n args, t = Ty.Constructed n args) ∧
        (∀ t g, Resolves ctx.substitution t g ↔ Resolves ctx'.substitution t g)) ∧
    (∀ kv ∈ ctx.substitution,
      chaseF (ctx.substitution.length + 1) ctx.substitution kv.2 = none →
      ctx.reduct_substitution = none) := by
  constructor
  · intro hall
    obtain ⟨r, hr, hlook⟩ := mapValsChase_some ctx.substitution hall
    refine ⟨{ ctx with substitution := r }, ?_, rfl, hlook, ?_, ?_⟩
    · simp [Context.reduct_substitution, hr]
    · intro k t hk
      have := hlook k
      rw [hk] at this
      cases hv : lookupS ctx.substitution k with
      | none => rw [hv] at this; cases this
      | some u =>
        rw [hv] at this
        simp only [Option.some_bind] at this
        exact chaseF_constructed this.symm
    · exact resolves_reduced_iff hall hlook
  · intro kv hm hch
    simp [Context.reduct_substitution, mapValsChase_none ctx.substitution kv hm hch]

/-- Witness for C9: a two-hop chain is compressed, and a store whose chain
hits an unbound variable is fatal. -/
theorem reduct_substitution_spec_witness :
    (∃ ctx', Context.reduct_substitution (N := String)
        ⟨[(0, .Variable 1), (1, .Constructed "int" [])], 2⟩ = some ctx' ∧
      ctx'.next = (⟨[(0, Ty.Variable 1), (1, Ty.Constructed "int" [])], 2⟩ :
        Context String).next ∧
      (∀ k, lookupS ctx'.substitution k =
        (lookupS (⟨[(0, Ty.Variable 1), (1, Ty.Constructed "int" [])], 2⟩ :
          Context String).substitution k).bind
          (chaseF ((⟨[(0, Ty.Variable 1), (1, Ty.Constructed "int" [])], 2⟩ :
            Context String).substitution.length + 1)
            (⟨[(0, Ty.Variable 1), (1, Ty.Constructed "int" [])], 2⟩ :
              Context String).substitution)) ∧
      (∀ k t, lookupS ctx'.substitution k = some t →
        ∃ n args, t = Ty.Constructed n args) ∧
      (∀ t g, Resolves (⟨[(0, Ty.Variable 1), (1, Ty.Constructed "int" [])], 2⟩ :
          Context String).substitution t g ↔ Resolves ctx'.substitution t g)) ∧
    Context.reduct_substitution (N := String) ⟨[(0, .Variable 5)], 1⟩ = none := by
  constructor
  · exact (reduct_substitution_spec
      (⟨[(0, .Variable 1), (1, .Constructed "int" [])], 2⟩ : Context String)).1 (by decide)
  · exact (reduct_substitution_spec
      (⟨[(0, .Variable 5)], 1⟩ : Context String)).2 (0, .Variable 5) (by decide) (by rfl)

end PolytypeSpec
